import Mathlib

/-!
Verification development for `src/sep.c` (greedy axis-parallel point
separation).  The C program keeps a complete-digraph connectivity matrix
over up to `MAX_PTS` points, precomputes candidate bisection lines per
axis with `div_axis`, and greedily commits lines that still separate
connected points.

Shallow embedding conventions:
* C `int` coordinates become `Int`; the `float` line positions become `ℚ`
  (the only float arithmetic is `pta + (ptb - pta)/2` on values obtained
  from small integers, which is exact in both `float` and `ℚ`).
* The global arrays `points`, `sorted_x_pt`, `sorted_y_pt` are captured by
  a `pts_ctx` record of total functions; indices outside `[0, n_pts)` are
  never read by the embedded loops, mirroring the C code.
* The connectivity matrix `pt_connections` (an array of pointers, `NULL`
  meaning disconnected) becomes `conn : Nat → Nat → Bool`, `false` for
  `NULL`.  The never-read `pt_con_cnt` field is omitted.
* C `while` loops become structural recursion on an explicit bound
  (`gpni_go`, `div_axis_go`, `greedy_loop`) or `List.foldl` over
  `List.range n_pts` (the commit loops), so every definition computes.
-/

/-- Mirror of `enum axis { X, Y }`. -/
inductive axis_t
  | X
  | Y
deriving DecidableEq

/-- Mirror of `enum ret_val`. -/
inductive ret_val
  | SUCCESS
  | READ_NO_POINTS
  | READ_N_POINTS_MORE_LESS
  | READ_NOT_FOUND
  | INS_LN_EXIST
deriving DecidableEq

/-- Mirror of `#define MAX_PTS 100`. -/
def MAX_PTS : Nat := 100

/-- Mirror of `struct line` (`ln_axis`, `ln_committed`, `ln_inter`). -/
structure line_t where
  ln_axis : axis_t
  ln_committed : Bool
  ln_inter : ℚ
deriving DecidableEq

/-- The loaded point data and the two sorted views:
`pt_x i` / `pt_y i` are the coordinates of point `i` (the `points` array),
and `sorted_x k` / `sorted_y k` are the `pt_self_ix` of the point stored at
position `k` of `sorted_x_pt` / `sorted_y_pt`. -/
structure pts_ctx where
  n_pts : Nat
  pt_x : Nat → Int
  pt_y : Nat → Int
  sorted_x : Nat → Nat
  sorted_y : Nat → Nat

/-- The `if (axis == X) ls = sorted_x_pt; else ls = sorted_y_pt;` idiom:
sorted position to point index for the chosen axis. -/
def ls_of (c : pts_ctx) (ax : axis_t) : Nat → Nat :=
  match ax with
  | axis_t.X => c.sorted_x
  | axis_t.Y => c.sorted_y

/-- Coordinate (as a rational, the C code casts to `float`) of the point at
sorted position `i` on the chosen axis: `ls[i]->pt_x` resp. `ls[i]->pt_y`. -/
def coordq (c : pts_ctx) (ax : axis_t) (i : Nat) : ℚ :=
  match ax with
  | axis_t.X => ((c.pt_x (c.sorted_x i) : Int) : ℚ)
  | axis_t.Y => ((c.pt_y (c.sorted_y i) : Int) : ℚ)

/-- Mutable program state: the connectivity matrix (`pt_connections`,
`false` = `NULL`), the global `rem_cons` counter (a C `int`, hence `Int`),
and the `all_lines` array with its `n_lines` counter (a `List`). -/
structure sep_state where
  conn : Nat → Nat → Bool
  rem_cons : Int
  all_lines : List line_t

/-- Mirror of `initialize_connections()`: every ordered pair `(i, j)` with
`i, j < n` and `i ≠ j` is connected, and `rem_cons` is incremented once per
such pair, so it ends up as the cardinality of the off-diagonal of
`range n × range n` (the function then asserts this equals `n*(n-1)` and
exits otherwise; the assertion is proved below). -/
def initialize_connections (n : Nat) : sep_state :=
  { conn := fun i j => decide (i < n) && decide (j < n) && decide (i ≠ j)
    rem_cons :=
      ((((Finset.range n) ×ˢ (Finset.range n)).filter
        (fun p => p.1 ≠ p.2)).card : Int)
    all_lines := [] }

/-- Mirror of `disconnect_points(pt1, pt2)`: if `(pt1, pt2)` is still
connected, clear both `(pt1, pt2)` and `(pt2, pt1)` and drop `rem_cons`
by 2; otherwise do nothing. -/
def disconnect_points (s : sep_state) (pt1 pt2 : Nat) : sep_state :=
  if s.conn pt1 pt2 = true then
    { conn := fun a b =>
        if (a = pt1 ∧ b = pt2) ∨ (a = pt2 ∧ b = pt1) then false
        else s.conn a b
      rem_cons := s.rem_cons - 2
      all_lines := s.all_lines }
  else s

/-- The scan loop of `get_point_nearest_inter`: starting at index `i` with
`fuel = n_pts - i` iterations left (so `fuel = 0` exactly when the loop
guard `i < n_pts` fails), return `i - 1` at the first coordinate strictly
greater than `inter`, and `-1` if the loop runs off the end. -/
def gpni_go (coords : Nat → ℚ) (inter : ℚ) : Nat → Nat → Int
  | _, 0 => -1
  | i, fuel + 1 =>
    if coords i > inter then (i : Int) - 1
    else gpni_go coords inter (i + 1) fuel

/-- Mirror of `get_point_nearest_inter(axis, inter)`. -/
def get_point_nearest_inter (c : pts_ctx) (ax : axis_t) (inter : ℚ) : Int :=
  gpni_go (coordq c ax) inter 0 c.n_pts

/-- Inner disconnect loop of `commit`: `j = p+1; while (j < n_pts) {
disconnect_points(ls[i], ls[j]); j++; }`, written as a fold over
`range n_pts` guarded by `p < j`. -/
def disc_inner (sl : Nat → Nat) (p : Int) (i : Nat) (n : Nat)
    (s : sep_state) : sep_state :=
  (List.range n).foldl
    (fun acc (j : Nat) =>
      if p < (j : Int) then disconnect_points acc (sl i) (sl j)
      else acc) s

/-- Outer disconnect loop of `commit`: `i = 0; while (i <= p) { ... i++; }`.
Since `get_point_nearest_inter` always returns a value `< n_pts`, guarding a
fold over `range n_pts` by `i ≤ p` visits exactly the same indices. -/
def disc_outer (sl : Nat → Nat) (p : Int) (n : Nat)
    (s : sep_state) : sep_state :=
  (List.range n).foldl
    (fun acc (i : Nat) =>
      if (i : Int) ≤ p then disc_inner sl p i n acc else acc) s

/-- Mirror of `commit(l)`: mark the line committed, append it to
`all_lines`, and disconnect every pair with the left point at sorted
position `≤ p` and the right point at sorted position `> p`, where `p` is
`get_point_nearest_inter` of the line's axis and intercept. -/
def commit (c : pts_ctx) (l : line_t) (s : sep_state) : sep_state :=
  let p := get_point_nearest_inter c l.ln_axis l.ln_inter
  let sl := ls_of c l.ln_axis
  let s2 := disc_outer sl p c.n_pts s
  { conn := s2.conn
    rem_cons := s2.rem_cons
    all_lines := s.all_lines ++ [{ l with ln_committed := true }] }

/-- Mirror of `check_con(ln)`: true iff some point at sorted position
`i ≤ p` is still connected to some point at sorted position `j > p`
(`i < p+1` and `j` starting from `p+1` in the C loops). -/
def check_con (c : pts_ctx) (ln : line_t) (s : sep_state) : Bool :=
  let p := get_point_nearest_inter c ln.ln_axis ln.ln_inter
  let sl := ls_of c ln.ln_axis
  (List.range c.n_pts).any (fun i =>
    decide ((i : Int) ≤ p) &&
    (List.range c.n_pts).any (fun j =>
      decide (p < (j : Int)) && s.conn (sl i) (sl j)))

/-- Mirror of `read_instance_file` after the `fopen` succeeded: `header`
is the leading `%d` (absent when the first `fscanf` hits `EOF`), `pairs`
are the coordinate pairs in the file.  The read loop stores pairs while
`fscanf != EOF && i < MAX_PTS`, so at most `MAX_PTS` pairs are stored, and
the function fails with `READ_N_POINTS_MORE_LESS` when the stored count
differs from the declared count. -/
def read_instance_file (header : Option Int) (pairs : List (Int × Int)) :
    ret_val × List (Int × Int) :=
  match header with
  | none => (ret_val.READ_NO_POINTS, [])
  | some n_pts =>
    let stored := pairs.take MAX_PTS
    if ((stored.length : Int) ≠ n_pts) then
      (ret_val.READ_N_POINTS_MORE_LESS, stored)
    else (ret_val.SUCCESS, stored)

/-- Recursion body of `div_axis(axis, from, to)` (arguments `f`, `t`; the
C names `from`/`to` are Lean keywords).  The recursion spans strictly
decrease, so the extra structural bound `fuel` never runs out when the
function is entered through `div_axis` below with `fuel = t - f`. -/
def div_axis_go (c : pts_ctx) (ax : axis_t) : Nat → Nat → Nat → List line_t
  | 0, _, _ => []
  | fuel + 1, f, t =>
    if f = t then []
    else
      let span := t - f
      if span = 0 ∨ span = 1 then []
      else
        let half := if span % 2 = 1 then (span - 1) / 2 else span / 2
        if half = 0 then []
        else
          let pta := coordq c ax (f + half)
          let ptb := coordq c ax (f + half + 1)
          let ptdiff := ptb - pta
          let ptmid_dist := ptdiff / 2
          let ptmid_coord := pta + ptmid_dist
          let cur_ln : line_t :=
            { ln_axis := ax, ln_committed := false, ln_inter := ptmid_coord }
          if span ≠ 2 then
            cur_ln ::
              (div_axis_go c ax fuel f (f + half) ++
               div_axis_go c ax fuel (f + half) t)
          else [cur_ln]

/-- Mirror of `div_axis(axis, from, to)`: the list of candidate lines for
one axis, in exactly the order they are appended to `x_lines`/`y_lines`
(current line first, then the left half, then the right half). -/
def div_axis (c : pts_ctx) (ax : axis_t) (f t : Nat) : List line_t :=
  div_axis_go c ax (t - f) f t

/-- Mirror of the greedy loop in `main`:
`while (rem_cons && clx < n_x_lines && cly < n_y_lines)` testing and
committing `x_lines[clx]` then `y_lines[cly]` and advancing both cursors.
The unconsumed suffixes of the two candidate sequences play the role of
the cursors; the returned `Nat` counts loop iterations (each iteration
consumes one candidate of each axis). -/
def greedy_loop (c : pts_ctx) :
    List line_t → List line_t → sep_state → sep_state × Nat
  | lx :: xs, ly :: ys, s =>
    if s.rem_cons = 0 then (s, 0)
    else
      let s1 := if check_con c lx s then commit c lx s else s
      let s2 := if check_con c ly s1 then commit c ly s1 else s1
      let r := greedy_loop c xs ys s2
      (r.1, r.2 + 1)
  | _, _, s => (s, 0)

/-- Number of live ordered connections recorded in the matrix (the value
`rem_cons` is meant to track). -/
def conn_card (n : Nat) (s : sep_state) : Nat :=
  (((Finset.range n) ×ˢ (Finset.range n)).filter
    (fun p => s.conn p.1 p.2 = true)).card

/-- Number of unordered pairs `{i, j}`, `i < j < n`, disconnected so far. -/
def disc_unordered (n : Nat) (s : sep_state) : Nat :=
  (((Finset.range n) ×ˢ (Finset.range n)).filter
    (fun p => p.1 < p.2 ∧ s.conn p.1 p.2 = false)).card

/-- States reachable for one instance: the initialized matrix, followed by
any interleaving of `disconnect_points` calls and `commit`s (in the program
all disconnections happen inside commits; allowing bare disconnections only
strengthens the invariants proved below). -/
inductive reachable (c : pts_ctx) : sep_state → Prop
  | init : reachable c (initialize_connections c.n_pts)
  | disc (s : sep_state) (a b : Nat) :
      reachable c s → reachable c (disconnect_points s a b)
  | comm (s : sep_state) (l : line_t) :
      reachable c s → reachable c (commit c l s)

/-- Bookkeeping invariant of the connectivity matrix: symmetry,
irreflexivity, all live entries within range, and `rem_cons` equal both to
the number of live ordered connections and to `n*(n-1)` minus twice the
number of disconnected unordered pairs. -/
def conn_inv (n : Nat) (s : sep_state) : Prop :=
  (∀ i j, s.conn i j = s.conn j i) ∧
  (∀ i, s.conn i i = false) ∧
  (∀ i j, s.conn i j = true → i < n ∧ j < n) ∧
  (s.rem_cons = (conn_card n s : Int)) ∧
  (s.rem_cons = ((n * (n - 1) : Nat) : Int) - 2 * (disc_unordered n s : Int))

/-- Concrete 2-point instance `(0,0)`, `(3,3)` (already sorted on both
axes), used as a witness input. -/
def ctx2 : pts_ctx :=
  { n_pts := 2
    pt_x := fun i => if i = 0 then 0 else 3
    pt_y := fun i => if i = 0 then 0 else 3
    sorted_x := fun i => i
    sorted_y := fun i => i }

/-- Concrete 1-point instance `(0,0)`, used as a witness input. -/
def ctx1 : pts_ctx :=
  { n_pts := 1
    pt_x := fun _ => 0
    pt_y := fun _ => 0
    sorted_x := fun i => i
    sorted_y := fun i => i }

/-- Concrete 4-point instance with coordinates `(i, i)` for `i < 4`
(already sorted on both axes), used as a witness input. -/
def ctx4 : pts_ctx :=
  { n_pts := 4
    pt_x := fun i => (i : Int)
    pt_y := fun i => (i : Int)
    sorted_x := fun i => i
    sorted_y := fun i => i }

/-! Generic preservation lemmas for the embedded while-loops. -/

theorem foldl_pres {α : Type} (P : sep_state → Prop) (f : sep_state → α → sep_state)
    (hf : ∀ s a, P s → P (f s a)) :
    ∀ (L : List α) (s : sep_state), P s → P (L.foldl f s) := by
  intro L
  induction L with
  | nil => intro s hs; simpa using hs
  | cons a L ih => intro s hs; rw [List.foldl_cons]; exact ih _ (hf s a hs)

theorem disconnect_conn_false (s : sep_state) (a b : Nat) :
    (disconnect_points s a b).conn a b = false := by
  unfold disconnect_points
  split
  · simp
  · rename_i h; simpa using h

theorem disconnect_mono_false (s : sep_state) (a b x y : Nat)
    (h : s.conn x y = false) : (disconnect_points s a b).conn x y = false := by
  unfold disconnect_points
  split
  · dsimp only
    split
    · rfl
    · exact h
  · exact h

theorem disconnect_sym (s : sep_state) (a b : Nat)
    (hs : ∀ x y, s.conn x y = s.conn y x) (x y : Nat) :
    (disconnect_points s a b).conn x y = (disconnect_points s a b).conn y x := by
  unfold disconnect_points
  split
  · dsimp only
    by_cases hxy : (x = a ∧ y = b) ∨ (x = b ∧ y = a)
    · have hyx : (y = a ∧ x = b) ∨ (y = b ∧ x = a) := by tauto
      rw [if_pos hxy, if_pos hyx]
    · have hyx : ¬((y = a ∧ x = b) ∨ (y = b ∧ x = a)) := by tauto
      rw [if_neg hxy, if_neg hyx]
      exact hs x y
  · exact hs x y

/-- C3 counterexample: the loader accepts an input declaring zero points
with zero coordinate pairs (`SUCCESS`), instead of failing as the claim
requires. -/
theorem read_zero_points_accepted :
    (read_instance_file (some 0) []).1 = ret_val.SUCCESS := rfl

/-- C3 (amended): the loader succeeds exactly when a header was read and it
equals the number of pairs actually stored (the supplied pairs truncated to
`MAX_PTS`); in particular a declared count of zero with zero pairs is
accepted, and any declared/stored mismatch yields
`READ_N_POINTS_MORE_LESS`. -/
theorem read_success_iff (header : Option Int) (pairs : List (Int × Int)) :
    (read_instance_file header pairs).1 = ret_val.SUCCESS ↔
      header = some (((pairs.take MAX_PTS).length : Nat) : Int) := by
  cases header with
  | none => simp [read_instance_file]
  | some n =>
    simp only [read_instance_file, Option.some.injEq]
    split
    · rename_i h
      constructor
      · intro hh; exact absurd hh (by simp)
      · intro hh; exact absurd hh.symm h
    · rename_i h
      rw [not_ne_iff] at h
      simp [h.symm]

/-- C2 (code bug evaluation): on the 2-point instance `(0,0)`, `(3,3)`,
`div_axis` generates no candidate line on either axis (the span `to - from
= 1` returns immediately), so the greedy loop never runs, `rem_cons` stays
at 2 and the output line list is empty — the remaining pair is never
separated, against the stated expectation of exactly one committed line
and `rem_cons = 0`. -/
theorem two_point_instance_no_candidates :
    div_axis ctx2 axis_t.X 0 (ctx2.n_pts - 1) = [] ∧
    div_axis ctx2 axis_t.Y 0 (ctx2.n_pts - 1) = [] ∧
    (greedy_loop ctx2 (div_axis ctx2 axis_t.X 0 (ctx2.n_pts - 1))
      (div_axis ctx2 axis_t.Y 0 (ctx2.n_pts - 1))
      (initialize_connections ctx2.n_pts)).1.rem_cons = 2 ∧
    (greedy_loop ctx2 (div_axis ctx2 axis_t.X 0 (ctx2.n_pts - 1))
      (div_axis ctx2 axis_t.Y 0 (ctx2.n_pts - 1))
      (initialize_connections ctx2.n_pts)).1.all_lines = [] := by
  refine ⟨rfl, rfl, by decide, rfl⟩

/-- C4 (code bug evaluation): on a 1-point instance with the point at
`(0,0)` and query coordinate `5`, every point's coordinate is `≤ 5`, so
the claim (and the function's own comment) require the index of the last
such point (`0`); the scan loop instead falls off the end and returns
`-1`. -/
theorem gpni_all_left_returns_none :
    get_point_nearest_inter ctx1 axis_t.X 5 = -1 ∧
    0 < ctx1.n_pts ∧ coordq ctx1 axis_t.X (ctx1.n_pts - 1) ≤ 5 := by decide

theorem foldl_inner_conn_false (sl : Nat → Nat) (p : Int) (i j0 : Nat)
    (hpj : p < (j0 : Int)) :
    ∀ (L : List Nat) (s : sep_state), j0 ∈ L →
      ((L.foldl
        (fun acc (j : Nat) =>
          if p < (j : Int) then disconnect_points acc (sl i) (sl j)
          else acc) s)).conn (sl i) (sl j0) = false := by
  intro L
  induction L with
  | nil => intro s h; simp at h
  | cons a L ih =>
    intro s hmem
    rw [List.foldl_cons]
    rcases List.mem_cons.mp hmem with h | h
    · subst h
      apply foldl_pres (fun t => t.conn (sl i) (sl j0) = false)
      · intro t x ht
        split
        · exact disconnect_mono_false _ _ _ _ _ ht
        · exact ht
      · rw [if_pos hpj]
        exact disconnect_conn_false _ _ _
    · exact ih _ h

theorem disc_inner_conn_false (sl : Nat → Nat) (p : Int) (i n : Nat)
    (s : sep_state) (j0 : Nat) (hj0 : j0 < n) (hpj : p < (j0 : Int)) :
    (disc_inner sl p i n s).conn (sl i) (sl j0) = false :=
  foldl_inner_conn_false sl p i j0 hpj (List.range n) s (List.mem_range.mpr hj0)

theorem disc_inner_pres_false (sl : Nat → Nat) (p : Int) (i n : Nat)
    (s : sep_state) (x y : Nat) (h : s.conn x y = false) :
    (disc_inner sl p i n s).conn x y = false := by
  apply foldl_pres (fun t => t.conn x y = false)
  · intro t j ht
    split
    · exact disconnect_mono_false _ _ _ _ _ ht
    · exact ht
  · exact h

theorem foldl_outer_conn_false (sl : Nat → Nat) (p : Int) (n i0 j0 : Nat)
    (hj0 : j0 < n) (hip : (i0 : Int) ≤ p) (hpj : p < (j0 : Int)) :
    ∀ (L : List Nat) (s : sep_state), i0 ∈ L →
      ((L.foldl
        (fun acc (i : Nat) =>
          if (i : Int) ≤ p then disc_inner sl p i n acc else acc)
        s)).conn (sl i0) (sl j0) = false := by
  intro L
  induction L with
  | nil => intro s h; simp at h
  | cons a L ih =>
    intro s hmem
    rw [List.foldl_cons]
    rcases List.mem_cons.mp hmem with h | h
    · subst h
      apply foldl_pres (fun t => t.conn (sl i0) (sl j0) = false)
      · intro t x ht
        split
        · exact disc_inner_pres_false _ _ _ _ _ _ _ ht
        · exact ht
      · rw [if_pos hip]
        exact disc_inner_conn_false _ _ _ _ _ _ hj0 hpj
    · exact ih _ h

theorem disc_outer_conn_false (sl : Nat → Nat) (p : Int) (n : Nat)
    (s : sep_state) (i0 j0 : Nat) (hi0 : i0 < n) (hj0 : j0 < n)
    (hip : (i0 : Int) ≤ p) (hpj : p < (j0 : Int)) :
    (disc_outer sl p n s).conn (sl i0) (sl j0) = false :=
  foldl_outer_conn_false sl p n i0 j0 hj0 hip hpj (List.range n) s
    (List.mem_range.mpr hi0)

theorem commit_conn_false (c : pts_ctx) (l : line_t) (s : sep_state)
    (i j : Nat) (hi : i < c.n_pts) (hj : j < c.n_pts)
    (hip : (i : Int) ≤ get_point_nearest_inter c l.ln_axis l.ln_inter)
    (hpj : get_point_nearest_inter c l.ln_axis l.ln_inter < (j : Int)) :
    (commit c l s).conn (ls_of c l.ln_axis i) (ls_of c l.ln_axis j) = false := by
  unfold commit
  dsimp only
  exact disc_outer_conn_false _ _ _ _ _ _ hi hj hip hpj

/-- C10: immediately after a line is committed, re-testing that same line
finds no remaining connection across its partition — `check_con l` on the
state produced by `commit l` is false, because `commit` has already
disconnected the exact set of sorted-position pairs that the test scans. -/
theorem check_con_after_commit_false (c : pts_ctx) (l : line_t)
    (s : sep_state) : check_con c l (commit c l s) = false := by
  rw [Bool.eq_false_iff]
  intro hcon
  unfold check_con at hcon
  simp only [List.any_eq_true, List.mem_range, Bool.and_eq_true,
    decide_eq_true_eq] at hcon
  obtain ⟨i, hi, hip, j, hj, hpj, hconn⟩ := hcon
  rw [commit_conn_false c l s i j hi hj hip hpj] at hconn
  exact Bool.noConfusion hconn

theorem disc_inner_sym (sl : Nat → Nat) (p : Int) (i n : Nat)
    (s : sep_state) (hs : ∀ x y, s.conn x y = s.conn y x) :
    ∀ x y, (disc_inner sl p i n s).conn x y = (disc_inner sl p i n s).conn y x := by
  apply foldl_pres (fun t => ∀ x y, t.conn x y = t.conn y x)
  · intro t j ht
    split
    · exact disconnect_sym _ _ _ ht
    · exact ht
  · exact hs

theorem commit_sym (c : pts_ctx) (l : line_t) (s : sep_state)
    (hs : ∀ x y, s.conn x y = s.conn y x) :
    ∀ x y, (commit c l s).conn x y = (commit c l s).conn y x := by
  unfold commit
  dsimp only
  unfold disc_outer
  apply foldl_pres (fun t => ∀ x y, t.conn x y = t.conn y x)
  · intro t i ht
    split
    · exact disc_inner_sym _ _ _ _ _ ht
    · exact ht
  · exact hs

theorem init_conn_sym (n : Nat) :
    ∀ x y, (initialize_connections n).conn x y = (initialize_connections n).conn y x := by
  intro x y
  simp only [initialize_connections]
  rcases eq_or_ne x y with rfl | hne
  · rfl
  · simp only [hne, hne.symm, decide_not]
    by_cases h1 : x < n <;> by_cases h2 : y < n <;> simp [h1, h2]

/-- C5: committing a line appends it (marked committed) to the final
ordered output list, and disconnects — in both orientations, given the
symmetry every reachable state enjoys — every pair with the left point at
a sorted position `≤ p` and the right point at a sorted position `> p`,
i.e. all cross-partition pairs, not only the pair that triggered the
commit. -/
theorem commit_appends_and_disconnects (c : pts_ctx) (l : line_t)
    (s : sep_state) (hsym : ∀ x y, s.conn x y = s.conn y x) :
    (commit c l s).all_lines = s.all_lines ++ [{ l with ln_committed := true }] ∧
    (∀ i j, i < c.n_pts → j < c.n_pts →
      (i : Int) ≤ get_point_nearest_inter c l.ln_axis l.ln_inter →
      get_point_nearest_inter c l.ln_axis l.ln_inter < (j : Int) →
      (commit c l s).conn (ls_of c l.ln_axis i) (ls_of c l.ln_axis j) = false ∧
      (commit c l s).conn (ls_of c l.ln_axis j) (ls_of c l.ln_axis i) = false) := by
  constructor
  · rfl
  · intro i j hi hj hip hpj
    have h1 := commit_conn_false c l s i j hi hj hip hpj
    refine ⟨h1, ?_⟩
    rw [commit_sym c l s hsym]
    exact h1

/-- Witness for C5 on the concrete 2-point instance with the vertical line
`x = 2`: the line is appended marked committed and the two points are
disconnected in both orientations. -/
theorem commit_appends_and_disconnects_witness :
    (commit ctx2 ⟨axis_t.X, false, 2⟩ (initialize_connections 2)).all_lines =
      (initialize_connections 2).all_lines ++ [⟨axis_t.X, true, 2⟩] ∧
    (commit ctx2 ⟨axis_t.X, false, 2⟩ (initialize_connections 2)).conn
      (ls_of ctx2 axis_t.X 0) (ls_of ctx2 axis_t.X 1) = false ∧
    (commit ctx2 ⟨axis_t.X, false, 2⟩ (initialize_connections 2)).conn
      (ls_of ctx2 axis_t.X 1) (ls_of ctx2 axis_t.X 0) = false := by
  have h := commit_appends_and_disconnects ctx2 ⟨axis_t.X, false, 2⟩
    (initialize_connections 2) (init_conn_sym 2)
  have h2 := h.2 0 1 (by decide) (by decide) (by decide) (by decide)
  exact ⟨h.1, h2.1, h2.2⟩

theorem div_axis_go_length_eq (c c2 : pts_ctx) (ax ax2 : axis_t) :
    ∀ (fuel f t : Nat),
      (div_axis_go c ax fuel f t).length = (div_axis_go c2 ax2 fuel f t).length := by
  intro fuel
  induction fuel with
  | zero => intro f t; rfl
  | succ fuel ih =>
    intro f t
    simp only [div_axis_go]
    split_ifs <;> simp [ih]

theorem div_axis_length_eq (c : pts_ctx) (f t : Nat) :
    (div_axis c axis_t.X f t).length = (div_axis c axis_t.Y f t).length :=
  div_axis_go_length_eq c c axis_t.X axis_t.Y (t - f) f t

theorem greedy_loop_steps_le (c : pts_ctx) :
    ∀ (xs ys : List line_t) (s : sep_state),
      (greedy_loop c xs ys s).2 ≤ xs.length := by
  intro xs
  induction xs with
  | nil => intro ys s; cases ys <;> exact Nat.le_refl 0
  | cons lx xs ih =>
    intro ys s
    cases ys with
    | nil => exact Nat.zero_le _
    | cons ly ys =>
      simp only [greedy_loop]
      split
      · exact Nat.zero_le _
      · exact Nat.succ_le_succ (ih _ _)

theorem greedy_loop_stop (c : pts_ctx) :
    ∀ (xs ys : List line_t) (s : sep_state), xs.length = ys.length →
      (greedy_loop c xs ys s).1.rem_cons ≠ 0 →
      (greedy_loop c xs ys s).2 = xs.length := by
  intro xs
  induction xs with
  | nil =>
    intro ys s hlen _
    have : ys = [] := List.length_eq_zero.mp hlen.symm
    subst this
    rfl
  | cons lx xs ih =>
    intro ys s hlen hrem
    cases ys with
    | nil => exact absurd hlen (by simp)
    | cons ly ys =>
      simp only [greedy_loop] at hrem ⊢
      split at hrem
      · rename_i h0
        exact absurd h0 hrem
      · rename_i h0
        rw [if_neg h0]
        simp only [List.length_cons]
        have := ih ys _ (by simpa using hlen) hrem
        simpa using this

theorem greedy_loop_term (c : pts_ctx) :
    ∀ (xs ys : List line_t) (s : sep_state),
      (greedy_loop c xs ys s).1.rem_cons = 0 ∨
      (greedy_loop c xs ys s).2 = xs.length ∨
      (greedy_loop c xs ys s).2 = ys.length := by
  intro xs
  induction xs with
  | nil => intro ys s; cases ys <;> exact Or.inr (Or.inl rfl)
  | cons lx xs ih =>
    intro ys s
    cases ys with
    | nil => exact Or.inr (Or.inr rfl)
    | cons ly ys =>
      simp only [greedy_loop]
      split
      · rename_i h0; exact Or.inl h0
      · rcases ih ys _ with h | h | h
        · exact Or.inl h
        · exact Or.inr (Or.inl (by simpa using h))
        · exact Or.inr (Or.inr (by simpa using h))

/-- C1: in `main`, both axes generate equally many candidate lines from the
same index range and the two cursors advance in lockstep, so although the
loop condition conjoins both cursor bounds, a termination with
`rem_cons ≠ 0` can only happen with both candidate sequences fully
consumed (the iteration count equals both sequence lengths). -/
theorem greedy_nonzero_rem_both_consumed (c : pts_ctx) (s : sep_state)
    (h : (greedy_loop c (div_axis c axis_t.X 0 (c.n_pts - 1))
      (div_axis c axis_t.Y 0 (c.n_pts - 1)) s).1.rem_cons ≠ 0) :
    (greedy_loop c (div_axis c axis_t.X 0 (c.n_pts - 1))
      (div_axis c axis_t.Y 0 (c.n_pts - 1)) s).2 =
        (div_axis c axis_t.X 0 (c.n_pts - 1)).length ∧
    (greedy_loop c (div_axis c axis_t.X 0 (c.n_pts - 1))
      (div_axis c axis_t.Y 0 (c.n_pts - 1)) s).2 =
        (div_axis c axis_t.Y 0 (c.n_pts - 1)).length := by
  have hlen := div_axis_length_eq c 0 (c.n_pts - 1)
  have h1 := greedy_loop_stop c _ _ s hlen h
  exact ⟨h1, h1.trans hlen⟩

/-- Witness for C1: the 2-point instance terminates with `rem_cons = 2 ≠ 0`
and both (empty) candidate sequences fully consumed. -/
theorem greedy_nonzero_rem_both_consumed_witness :
    (greedy_loop ctx2 (div_axis ctx2 axis_t.X 0 (ctx2.n_pts - 1))
      (div_axis ctx2 axis_t.Y 0 (ctx2.n_pts - 1))
      (initialize_connections 2)).1.rem_cons ≠ 0 ∧
    (greedy_loop ctx2 (div_axis ctx2 axis_t.X 0 (ctx2.n_pts - 1))
      (div_axis ctx2 axis_t.Y 0 (ctx2.n_pts - 1))
      (initialize_connections 2)).2 =
        (div_axis ctx2 axis_t.X 0 (ctx2.n_pts - 1)).length :=
  ⟨by decide,
   (greedy_nonzero_rem_both_consumed ctx2 (initialize_connections 2)
     (by decide)).1⟩

/-- C8: the greedy loop is a total function whose iteration count is
bounded by the total number of candidate lines generated across both axes,
and it terminates either with `rem_cons = 0` (`DONE`) or with both
candidate sequences fully consumed (`EXHAUSTED`). -/
theorem greedy_loop_step_bound (c : pts_ctx) (s : sep_state) :
    (greedy_loop c (div_axis c axis_t.X 0 (c.n_pts - 1))
      (div_axis c axis_t.Y 0 (c.n_pts - 1)) s).2 ≤
        (div_axis c axis_t.X 0 (c.n_pts - 1)).length +
        (div_axis c axis_t.Y 0 (c.n_pts - 1)).length ∧
    ((greedy_loop c (div_axis c axis_t.X 0 (c.n_pts - 1))
        (div_axis c axis_t.Y 0 (c.n_pts - 1)) s).1.rem_cons = 0 ∨
      ((greedy_loop c (div_axis c axis_t.X 0 (c.n_pts - 1))
          (div_axis c axis_t.Y 0 (c.n_pts - 1)) s).2 =
            (div_axis c axis_t.X 0 (c.n_pts - 1)).length ∧
        (greedy_loop c (div_axis c axis_t.X 0 (c.n_pts - 1))
          (div_axis c axis_t.Y 0 (c.n_pts - 1)) s).2 =
            (div_axis c axis_t.Y 0 (c.n_pts - 1)).length)) := by
  have hlen := div_axis_length_eq c 0 (c.n_pts - 1)
  constructor
  · exact Nat.le_trans (greedy_loop_steps_le c _ _ s) (Nat.le_add_right _ _)
  · rcases greedy_loop_term c (div_axis c axis_t.X 0 (c.n_pts - 1))
      (div_axis c axis_t.Y 0 (c.n_pts - 1)) s with h | h | h
    · exact Or.inl h
    · exact Or.inr ⟨h, h.trans hlen⟩
    · exact Or.inr ⟨h.trans hlen.symm, h⟩


theorem half_eq_div_two (s : Nat) :
    (if s % 2 = 1 then (s - 1) / 2 else s / 2) = s / 2 := by
  split <;> omega

theorem div_axis_go_mem (c : pts_ctx) (ax : axis_t) :
    ∀ (fuel f t : Nat) (l : line_t), l ∈ div_axis_go c ax fuel f t →
      ∃ k, f ≤ k ∧ k + 1 ≤ t ∧
        l = { ln_axis := ax, ln_committed := false,
              ln_inter := coordq c ax k +
                (coordq c ax (k + 1) - coordq c ax k) / 2 } := by
  intro fuel
  induction fuel with
  | zero => intro f t l hl; simp [div_axis_go] at hl
  | succ fuel ih =>
    intro f t l hl
    simp only [div_axis_go, half_eq_div_two] at hl
    split_ifs at hl with h1 h2 h3 h4
    · simp at hl
    · simp at hl
    · simp at hl
    · -- span ≠ 2: current line, then the two halves
      have hspan2 : 2 ≤ t - f := by omega
      rcases List.mem_cons.mp hl with hcur | hrest
      · exact ⟨f + (t - f) / 2, Nat.le_add_right _ _, by omega, hcur⟩
      · rcases List.mem_append.mp hrest with hL | hR
        · obtain ⟨k, hk1, hk2, hk3⟩ := ih _ _ l hL
          exact ⟨k, hk1, by omega, hk3⟩
        · obtain ⟨k, hk1, hk2, hk3⟩ := ih _ _ l hR
          exact ⟨k, by omega, hk2, hk3⟩
    · -- span = 2: the single line
      have hspan : t - f = 2 := by omega
      simp only [List.mem_singleton] at hl
      exact ⟨f + (t - f) / 2, Nat.le_add_right _ _, by omega, hl⟩

/-- C7: under the design assumption of strictly increasing (hence
pairwise-distinct) coordinates along the sorted view of an axis, every
candidate line emitted by `div_axis` sits at the midpoint (average) of two
adjacent sorted points' coordinates, lies strictly between those two
distinct coordinates, and coincides with no point's coordinate on that
axis. -/
theorem div_axis_lines_midpoint_strict (c : pts_ctx) (ax : axis_t)
    (hmono : ∀ i j, i < j → j < c.n_pts → coordq c ax i < coordq c ax j)
    (l : line_t) (hl : l ∈ div_axis c ax 0 (c.n_pts - 1)) :
    ∃ k, k + 1 ≤ c.n_pts - 1 ∧
      l.ln_inter = (coordq c ax k + coordq c ax (k + 1)) / 2 ∧
      coordq c ax k < l.ln_inter ∧ l.ln_inter < coordq c ax (k + 1) ∧
      ∀ m, m < c.n_pts → coordq c ax m ≠ l.ln_inter := by
  obtain ⟨k, _, hk2, hk3⟩ := div_axis_go_mem c ax _ 0 _ l hl
  have hn : 1 ≤ c.n_pts := by
    rcases Nat.eq_zero_or_pos c.n_pts with h0 | h1
    · rw [h0] at hk2; omega
    · exact h1
  have hkn : k + 1 < c.n_pts := by omega
  have hab : coordq c ax k < coordq c ax (k + 1) :=
    hmono k (k + 1) (Nat.lt_succ_self k) hkn
  have hinter : l.ln_inter =
      coordq c ax k + (coordq c ax (k + 1) - coordq c ax k) / 2 := by
    rw [hk3]
  have hmid : l.ln_inter = (coordq c ax k + coordq c ax (k + 1)) / 2 := by
    rw [hinter]; ring
  have hlt1 : coordq c ax k < l.ln_inter := by
    rw [hmid]; linarith
  have hlt2 : l.ln_inter < coordq c ax (k + 1) := by
    rw [hmid]; linarith
  refine ⟨k, hk2, hmid, hlt1, hlt2, ?_⟩
  intro m hm
  rcases le_or_lt m k with hmk | hmk
  · rcases Nat.eq_or_lt_of_le hmk with rfl | hmlt
    · exact ne_of_lt hlt1
    · exact ne_of_lt (lt_trans (hmono m k hmlt (by omega)) hlt1)
  · have hm1 : k + 1 ≤ m := hmk
    rcases Nat.eq_or_lt_of_le hm1 with rfl | hmgt
    · exact ne_of_gt hlt2
    · exact ne_of_gt (lt_trans hlt2 (hmono (k + 1) m hmgt hm))

/-- Witness for C7 on the concrete 4-point instance with coordinates
`0, 1, 2, 3`: the first emitted X-candidate (between sorted positions 1
and 2) satisfies the midpoint and strict-betweenness properties. -/
theorem div_axis_lines_midpoint_strict_witness :
    ∃ k, k + 1 ≤ ctx4.n_pts - 1 ∧
      (⟨axis_t.X, false, coordq ctx4 axis_t.X 1 +
        (coordq ctx4 axis_t.X 2 - coordq ctx4 axis_t.X 1) / 2⟩ : line_t).ln_inter =
        (coordq ctx4 axis_t.X k + coordq ctx4 axis_t.X (k + 1)) / 2 ∧
      coordq ctx4 axis_t.X k <
        (⟨axis_t.X, false, coordq ctx4 axis_t.X 1 +
          (coordq ctx4 axis_t.X 2 - coordq ctx4 axis_t.X 1) / 2⟩ : line_t).ln_inter ∧
      (⟨axis_t.X, false, coordq ctx4 axis_t.X 1 +
        (coordq ctx4 axis_t.X 2 - coordq ctx4 axis_t.X 1) / 2⟩ : line_t).ln_inter <
        coordq ctx4 axis_t.X (k + 1) ∧
      ∀ m, m < ctx4.n_pts → coordq ctx4 axis_t.X m ≠
        (⟨axis_t.X, false, coordq ctx4 axis_t.X 1 +
          (coordq ctx4 axis_t.X 2 - coordq ctx4 axis_t.X 1) / 2⟩ : line_t).ln_inter :=
  div_axis_lines_midpoint_strict ctx4 axis_t.X
    (fun i j hij _ => by
      show ((i : Int) : ℚ) < ((j : Int) : ℚ)
      exact_mod_cast hij)
    _ (List.mem_cons_self _ _)

theorem disconnect_noop (s : sep_state) (a b : Nat)
    (hc : s.conn a b = false) : disconnect_points s a b = s := by
  unfold disconnect_points
  rw [if_neg]
  simp [hc]

theorem disconnect_conn_eq (s : sep_state) (a b : Nat)
    (hc : s.conn a b = true) (x y : Nat) :
    (disconnect_points s a b).conn x y =
      if (x = a ∧ y = b) ∨ (x = b ∧ y = a) then false else s.conn x y := by
  unfold disconnect_points
  rw [if_pos hc]

theorem disconnect_rem_eq (s : sep_state) (a b : Nat)
    (hc : s.conn a b = true) :
    (disconnect_points s a b).rem_cons = s.rem_cons - 2 := by
  unfold disconnect_points
  rw [if_pos hc]

theorem disconnect_points_comm (s : sep_state) (a b : Nat)
    (hs : ∀ x y, s.conn x y = s.conn y x) :
    disconnect_points s a b = disconnect_points s b a := by
  unfold disconnect_points
  rw [show s.conn a b = s.conn b a from hs a b]
  split
  · congr 1
    funext x y
    exact if_congr or_comm rfl rfl
  · rfl

theorem init_filter_eq (n : Nat) :
    ((Finset.range n ×ˢ Finset.range n).filter (fun p => p.1 ≠ p.2)) =
    ((Finset.range n ×ˢ Finset.range n).filter
      (fun p => (initialize_connections n).conn p.1 p.2 = true)) := by
  apply Finset.filter_congr
  intro p hp
  rw [Finset.mem_product] at hp
  simp only [Finset.mem_range] at hp
  simp [initialize_connections, hp.1, hp.2]

theorem init_card (n : Nat) :
    ((Finset.range n ×ˢ Finset.range n).filter (fun p => p.1 ≠ p.2)).card
      = n * (n - 1) := by
  have h : ((Finset.range n ×ˢ Finset.range n).filter (fun p => p.1 ≠ p.2))
      = (Finset.range n).offDiag := by
    ext p
    simp only [Finset.mem_filter, Finset.mem_offDiag, Finset.mem_product]
    tauto
  rw [h, Finset.offDiag_card, Finset.card_range]
  cases n with
  | zero => rfl
  | succ m => rw [Nat.succ_sub_one, Nat.mul_succ, Nat.add_sub_cancel]

theorem init_rem_val (n : Nat) :
    (initialize_connections n).rem_cons = ((n * (n - 1) : Nat) : Int) := by
  show ((((Finset.range n) ×ˢ (Finset.range n)).filter
    (fun p => p.1 ≠ p.2)).card : Int) = ((n * (n - 1) : Nat) : Int)
  rw [init_card n]

theorem init_disc_unordered (n : Nat) :
    disc_unordered n (initialize_connections n) = 0 := by
  unfold disc_unordered
  rw [Finset.card_eq_zero, Finset.filter_eq_empty_iff]
  intro p hp
  rw [Finset.mem_product] at hp
  simp only [Finset.mem_range] at hp
  rintro ⟨hlt, hfalse⟩
  have hct : (initialize_connections n).conn p.1 p.2 = true := by
    simp [initialize_connections, hp.1, hp.2, Nat.ne_of_lt hlt]
  rw [hct] at hfalse
  exact Bool.noConfusion hfalse

theorem conn_inv_init (n : Nat) : conn_inv n (initialize_connections n) := by
  refine ⟨init_conn_sym n, ?_, ?_, ?_, ?_⟩
  · intro i; simp [initialize_connections]
  · intro i j hc
    simp only [initialize_connections, Bool.and_eq_true, decide_eq_true_eq] at hc
    exact ⟨hc.1.1, hc.1.2⟩
  · show (initialize_connections n).rem_cons = (conn_card n (initialize_connections n) : Int)
    unfold conn_card
    rw [← init_filter_eq n]
    rfl
  · rw [init_rem_val n, init_disc_unordered n]
    simp

theorem conn_inv_disconnect_lt (n : Nat) (s : sep_state) (a b : Nat)
    (hab : a < b) (h : conn_inv n s) (hc : s.conn a b = true) :
    conn_inv n (disconnect_points s a b) := by
  obtain ⟨hsym, hirr, hbnd, hI2, hI3⟩ := h
  obtain ⟨ha, hb⟩ := hbnd a b hc
  have hne : a ≠ b := Nat.ne_of_lt hab
  have hcba : s.conn b a = true := by rw [hsym b a]; exact hc
  have hconn := disconnect_conn_eq s a b hc
  have hrem := disconnect_rem_eq s a b hc
  have hmem1 : ((a, b) : Nat × Nat) ∈
      ((Finset.range n ×ˢ Finset.range n).filter
        (fun p => s.conn p.1 p.2 = true)) := by
    rw [Finset.mem_filter, Finset.mem_product]
    exact ⟨⟨Finset.mem_range.mpr ha, Finset.mem_range.mpr hb⟩, hc⟩
  have hmem2 : ((b, a) : Nat × Nat) ∈
      ((Finset.range n ×ˢ Finset.range n).filter
        (fun p => s.conn p.1 p.2 = true)) := by
    rw [Finset.mem_filter, Finset.mem_product]
    exact ⟨⟨Finset.mem_range.mpr hb, Finset.mem_range.mpr ha⟩, hcba⟩
  have hnepair : ((b, a) : Nat × Nat) ≠ (a, b) := by
    intro hq
    simp only [Prod.mk.injEq] at hq
    exact hne hq.2
  have hS : ((Finset.range n ×ˢ Finset.range n).filter
      (fun p => (disconnect_points s a b).conn p.1 p.2 = true)) =
      (((Finset.range n ×ˢ Finset.range n).filter
        (fun p => s.conn p.1 p.2 = true)).erase (a, b)).erase (b, a) := by
    ext p
    simp only [Finset.mem_filter, Finset.mem_erase, hconn]
    by_cases hcond : (p.1 = a ∧ p.2 = b) ∨ (p.1 = b ∧ p.2 = a)
    · rw [if_pos hcond]
      constructor
      · rintro ⟨_, hfl⟩
        exact Bool.noConfusion hfl
      · rintro ⟨hne1, hne2, _, _⟩
        rcases hcond with ⟨q1, q2⟩ | ⟨q1, q2⟩
        · exact absurd (Prod.ext q1 q2) hne2
        · exact absurd (Prod.ext q1 q2) hne1
    · rw [if_neg hcond]
      constructor
      · rintro ⟨hp, hct⟩
        refine ⟨?_, ?_, hp, hct⟩
        · rintro rfl
          exact hcond (Or.inr ⟨rfl, rfl⟩)
        · rintro rfl
          exact hcond (Or.inl ⟨rfl, rfl⟩)
      · rintro ⟨_, _, hp, hct⟩
        exact ⟨hp, hct⟩
  have hmem2' : ((b, a) : Nat × Nat) ∈
      (((Finset.range n ×ˢ Finset.range n).filter
        (fun p => s.conn p.1 p.2 = true)).erase (a, b)) :=
    Finset.mem_erase.mpr ⟨hnepair, hmem2⟩
  have hcard2 : 1 < ((Finset.range n ×ˢ Finset.range n).filter
      (fun p => s.conn p.1 p.2 = true)).card :=
    Finset.one_lt_card.mpr ⟨(a, b), hmem1, (b, a), hmem2, hnepair.symm⟩
  have hD : ((Finset.range n ×ˢ Finset.range n).filter
      (fun p => p.1 < p.2 ∧ (disconnect_points s a b).conn p.1 p.2 = false)) =
      insert ((a, b) : Nat × Nat)
        ((Finset.range n ×ˢ Finset.range n).filter
          (fun p => p.1 < p.2 ∧ s.conn p.1 p.2 = false)) := by
    ext p
    simp only [Finset.mem_insert, Finset.mem_filter, hconn]
    by_cases hcond : (p.1 = a ∧ p.2 = b) ∨ (p.1 = b ∧ p.2 = a)
    · rw [if_pos hcond]
      rcases hcond with ⟨q1, q2⟩ | ⟨q1, q2⟩
      · have hp : p = (a, b) := Prod.ext q1 q2
        subst hp
        constructor
        · intro _
          exact Or.inl rfl
        · intro _
          refine ⟨?_, hab, rfl⟩
          rw [Finset.mem_product]
          exact ⟨Finset.mem_range.mpr ha, Finset.mem_range.mpr hb⟩
      · have hp : p = (b, a) := Prod.ext q1 q2
        subst hp
        constructor
        · rintro ⟨_, hlt, _⟩
          exact absurd hlt (by omega)
        · rintro (heq | ⟨_, hlt, _⟩)
          · exact absurd heq hnepair
          · exact absurd hlt (by omega)
    · rw [if_neg hcond]
      constructor
      · rintro ⟨hp, hlt, hcf⟩
        exact Or.inr ⟨hp, hlt, hcf⟩
      · rintro (heq | ⟨hp, hlt, hcf⟩)
        · subst heq
          exact absurd (Or.inl ⟨rfl, rfl⟩) hcond
        · exact ⟨hp, hlt, hcf⟩
  have hnotmem : ((a, b) : Nat × Nat) ∉
      ((Finset.range n ×ˢ Finset.range n).filter
        (fun p => p.1 < p.2 ∧ s.conn p.1 p.2 = false)) := by
    rw [Finset.mem_filter]
    rintro ⟨_, _, hcf⟩
    rw [hc] at hcf
    exact Bool.noConfusion hcf
  refine ⟨disconnect_sym s a b hsym, ?_, ?_, ?_, ?_⟩
  · intro i
    rw [hconn i i]
    split
    · rfl
    · exact hirr i
  · intro x y hxy
    rw [hconn x y] at hxy
    revert hxy
    split
    · intro hxy
      exact Bool.noConfusion hxy
    · exact hbnd x y
  · show (disconnect_points s a b).rem_cons =
      (conn_card n (disconnect_points s a b) : Int)
    rw [hrem, hI2]
    unfold conn_card
    rw [hS, Finset.card_erase_of_mem hmem2', Finset.card_erase_of_mem hmem1]
    omega
  · show (disconnect_points s a b).rem_cons =
      ((n * (n - 1) : Nat) : Int) -
        2 * (disc_unordered n (disconnect_points s a b) : Int)
    rw [hrem, hI3]
    unfold disc_unordered
    rw [hD, Finset.card_insert_of_not_mem hnotmem]
    push_cast
    ring

theorem conn_inv_disconnect (n : Nat) (s : sep_state) (a b : Nat)
    (h : conn_inv n s) : conn_inv n (disconnect_points s a b) := by
  by_cases hc : s.conn a b = true
  · rcases lt_trichotomy a b with hab | heq | hba
    · exact conn_inv_disconnect_lt n s a b hab h hc
    · subst heq
      rw [h.2.1 a] at hc
      exact Bool.noConfusion hc
    · have hcomm := disconnect_points_comm s a b h.1
      rw [hcomm]
      exact conn_inv_disconnect_lt n s b a hba h (by rw [h.1 b a]; exact hc)
  · rw [disconnect_noop s a b (Bool.eq_false_iff.mpr hc)]
    exact h

theorem conn_inv_commit (c : pts_ctx) (l : line_t) (s : sep_state)
    (h : conn_inv c.n_pts s) : conn_inv c.n_pts (commit c l s) := by
  have houter : conn_inv c.n_pts
      (disc_outer (ls_of c l.ln_axis)
        (get_point_nearest_inter c l.ln_axis l.ln_inter) c.n_pts s) := by
    unfold disc_outer
    apply foldl_pres (conn_inv c.n_pts)
    · intro t i ht
      split
      · unfold disc_inner
        apply foldl_pres (conn_inv c.n_pts)
        · intro u j hu
          split
          · exact conn_inv_disconnect _ _ _ _ hu
          · exact hu
        · exact ht
      · exact ht
    · exact h
  exact houter

theorem reachable_conn_inv (c : pts_ctx) (s : sep_state)
    (h : reachable c s) : conn_inv c.n_pts s := by
  induction h with
  | init => exact conn_inv_init c.n_pts
  | disc u a b _ ih => exact conn_inv_disconnect _ _ a b ih
  | comm u l _ ih => exact conn_inv_commit c l u ih

theorem even_mul_pred (n : Nat) : Even (n * (n - 1)) := by
  cases n with
  | zero => simp
  | succ m =>
    rw [Nat.succ_sub_one, Nat.mul_comm]
    exact Nat.even_mul_succ_self m

/-- C6: after initialization the remaining-connections counter equals
`n*(n-1)`; in every state reachable by commits (or individual
disconnections) it equals `n*(n-1)` minus twice the number of unordered
pairs disconnected so far, and it is always even and nonnegative. -/
theorem rem_cons_conservation (c : pts_ctx) (s : sep_state)
    (h : reachable c s) :
    (initialize_connections c.n_pts).rem_cons =
      ((c.n_pts * (c.n_pts - 1) : Nat) : Int) ∧
    s.rem_cons = ((c.n_pts * (c.n_pts - 1) : Nat) : Int) -
      2 * (disc_unordered c.n_pts s : Int) ∧
    Even s.rem_cons ∧ 0 ≤ s.rem_cons := by
  obtain ⟨hsym, hirr, hbnd, hI2, hI3⟩ := reachable_conn_inv c s h
  refine ⟨init_rem_val c.n_pts, hI3, ?_, ?_⟩
  · rw [hI3]
    have hN : Even ((c.n_pts * (c.n_pts - 1) : Nat) : Int) :=
      (Int.even_coe_nat _).mpr (even_mul_pred c.n_pts)
    exact hN.sub (even_two_mul _)
  · rw [hI2]
    exact Int.natCast_nonneg _

/-- Witness for C6: on the 2-point instance, after disconnecting the pair
`(0, 1)` the counter is `2*1 - 2*1 = 0`, even and nonnegative. -/
theorem rem_cons_conservation_witness :
    (initialize_connections ctx2.n_pts).rem_cons =
      ((ctx2.n_pts * (ctx2.n_pts - 1) : Nat) : Int) ∧
    (disconnect_points (initialize_connections ctx2.n_pts) 0 1).rem_cons =
      ((ctx2.n_pts * (ctx2.n_pts - 1) : Nat) : Int) -
        2 * (disc_unordered ctx2.n_pts
          (disconnect_points (initialize_connections ctx2.n_pts) 0 1) : Int) ∧
    Even (disconnect_points (initialize_connections ctx2.n_pts) 0 1).rem_cons ∧
    0 ≤ (disconnect_points (initialize_connections ctx2.n_pts) 0 1).rem_cons :=
  rem_cons_conservation ctx2 _ (reachable.disc _ 0 1 reachable.init)

/-- C9: in every reachable state the connectivity relation is symmetric:
the entry `(i, j)` is cleared exactly when the entry `(j, i)` is —
initialization establishes the symmetry and every disconnection (and hence
every commit) clears both entries together. -/
theorem conn_symmetric_reachable (c : pts_ctx) (s : sep_state)
    (h : reachable c s) (i j : Nat) :
    s.conn i j = false ↔ s.conn j i = false := by
  rw [(reachable_conn_inv c s h).1 i j]

/-- Witness for C9: symmetry of the concrete entry `(0, 1)` after a
disconnection on the 2-point instance. -/
theorem conn_symmetric_reachable_witness :
    (disconnect_points (initialize_connections ctx2.n_pts) 0 1).conn 0 1 = false ↔
    (disconnect_points (initialize_connections ctx2.n_pts) 0 1).conn 1 0 = false :=
  conn_symmetric_reachable ctx2 _ (reachable.disc _ 0 1 reachable.init) 0 1
